import Mathlib

/-!
Verification of the plopp reactive graph engine (scipp/plopp).

The repository's core (`plopp.core.node`, `plopp.core.helpers`) is a lazy,
push-based dependency graph: nodes hold a callable plus positional and
keyword parent nodes, evaluation (`request_data`) pulls recursively through
parents with no caching, and change notifications (`notify_children`)
propagate downward to children and attached views.  The definitions below
are a shallow embedding of that engine: graphs are explicit association
lists of node records, evaluation is fuel-indexed and returns both the
result (`Except` for Python exceptions) and the trace of nodes whose
evaluation began, and notifications are reified as the list of
`notify_view` events they produce, in order.
-/

namespace Plopp

/-- Node identifiers: process-unique, assigned by an increasing counter. -/
abbrev NodeId := Nat

/-- View identifiers: a view is an external observer; we only track identity. -/
abbrev ViewId := Nat

/-- Widget identifiers: handles into external, independently-stateful controls. -/
abbrev WidgetId := Nat

/-- Python exceptions are modelled by their identity (a string tag). -/
abbrev PyErr := String

/-- Modelled from the spec: error raised at construction and wiring time,
for example when parents are supplied alongside a raw input value. -/
def ConfigurationError : PyErr := "ConfigurationError"

/-- Modelled from the spec: error for operating on a node that is absent
from the graph (for example after it was detached). -/
def StaleReferenceError : PyErr := "StaleReferenceError"

/-- A concrete Python ValueError, used by erroring user callables. -/
def ValueError : PyErr := "ValueError"

/-- A concrete Python TypeError, used by operator callables on arity mismatch. -/
def TypeError : PyErr := "TypeError"

/-- The keyword name used in the claims about keyword parents. -/
def kwy : String := "y"

/-- A user callable: takes the positional results and the keyword results
and either returns a value or raises a Python exception. -/
abbrev FnT (V : Type) := List V → List (String × V) → Except PyErr V

/-- Modelled from the spec: the body of a node.  An input node wraps a
constant (its `func` is internally a zero-argument closure over the value),
a function node holds a user callable, and a widget-backed node reads the
current state of an external control. -/
inductive Func (V : Type) where
  | input (v : V)
  | fn (f : FnT V)
  | widget (w : WidgetId)

/-- Whether a node body is a widget reader. -/
def Func.isWidget {V : Type} : Func V → Bool
  | .widget _ => true
  | _ => false

/-- Modelled from the spec: a node record.  `parents` is the ordered list of
positional parents, `kwparents` maps keyword names to parents (insertion
order kept), `children` is the back-reference registry installed by wiring,
and `views` is the list of attached views in attachment order. -/
structure Node (V : Type) where
  func : Func V
  parents : List NodeId
  kwparents : List (String × NodeId)
  children : List NodeId
  views : List ViewId

/-- All parents of a node: positional ones in order, then keyword ones in
insertion order. -/
def parentIds {V : Type} (nd : Node V) : List NodeId :=
  nd.parents ++ nd.kwparents.map (fun kp => kp.2)

/-- Modelled from the spec: the graph state, an association list from node
identifiers to node records together with the next fresh identifier. -/
structure Graph (V : Type) where
  nodes : List (NodeId × Node V)
  fresh : NodeId

/-- The empty graph. -/
def Graph.empty {V : Type} : Graph V := { nodes := [], fresh := 0 }

/-- Look up a node record by identifier. -/
def Graph.find? {V : Type} (g : Graph V) (n : NodeId) : Option (Node V) :=
  (g.nodes.find? (fun p => p.1 == n)).map (fun p => p.2)

/-- Rewrite the record stored under an identifier in place. -/
def Graph.modifyNode {V : Type} (g : Graph V) (n : NodeId) (f : Node V → Node V) :
    Graph V :=
  { g with nodes := g.nodes.map (fun p => if p.1 == n then (p.1, f p.2) else p) }

/-- Append a fresh node record and return its identifier. -/
def Graph.push {V : Type} (g : Graph V) (nd : Node V) : Graph V × NodeId :=
  ({ nodes := g.nodes ++ [(g.fresh, nd)], fresh := g.fresh + 1 }, g.fresh)

/-- Modelled from the spec: create a pure input node wrapping a constant. -/
def mkInputNode {V : Type} (g : Graph V) (v : V) : Graph V × NodeId :=
  g.push { func := .input v, parents := [], kwparents := [], children := [], views := [] }

/-- An argument to the node constructor: either an existing node or a raw
value to be auto-lifted. -/
inductive NodeArg (V : Type) where
  | ofNode (n : NodeId)
  | raw (v : V)

/-- Modelled from the spec: auto-lifting of a single argument — a raw value
is wrapped into a fresh input node, an existing node is kept. -/
def liftArg {V : Type} (g : Graph V) : NodeArg V → Graph V × NodeId
  | .ofNode n => (g, n)
  | .raw v => mkInputNode g v

/-- Auto-lift a list of positional arguments, preserving order. -/
def liftArgs {V : Type} (g : Graph V) : List (NodeArg V) → Graph V × List NodeId
  | [] => (g, [])
  | a :: rest =>
    let r1 := liftArg g a
    let r2 := liftArgs r1.1 rest
    (r2.1, r1.2 :: r2.2)

/-- Auto-lift keyword arguments, preserving insertion order. -/
def liftKwargs {V : Type} (g : Graph V) :
    List (String × NodeArg V) → Graph V × List (String × NodeId)
  | [] => (g, [])
  | ka :: rest =>
    let r1 := liftArg g ka.2
    let r2 := liftKwargs r1.1 rest
    (r2.1, (ka.1, r1.2) :: r2.2)

/-- Modelled from the spec: install the child back-reference on a parent so
that notifications can propagate downward. -/
def registerChild {V : Type} (g : Graph V) (parent child : NodeId) : Graph V :=
  g.modifyNode parent (fun nd => { nd with children := nd.children ++ [child] })

/-- Modelled from the spec: construct a node from a callable.  Non-node
positional and keyword arguments are auto-lifted into fresh input nodes in
order, the new node is appended, and the new node registers itself as a
child of every parent and keyword parent. -/
def mkFnNode {V : Type} (g : Graph V) (f : FnT V) (args : List (NodeArg V))
    (kwargs : List (String × NodeArg V)) : Graph V × NodeId :=
  let ra := liftArgs g args
  let rk := liftKwargs ra.1 kwargs
  let r := rk.1.push
    { func := .fn f, parents := ra.2, kwparents := rk.2, children := [], views := [] }
  ((ra.2 ++ rk.2.map (fun kp => kp.2)).foldl (fun acc p => registerChild acc p r.2) r.1,
   r.2)

/-- The first constructor argument: a callable or a raw value. -/
inductive Head (V : Type) where
  | value (v : V)
  | func (f : FnT V)

/-- Modelled from the spec: the full `Node(...)` constructor.  If the first
argument is not callable the node becomes a pure input node, and supplying
positional or keyword parents alongside a raw value fails fast with
`ConfigurationError`; if it is callable, arguments are auto-lifted and
wired. -/
def mkNode {V : Type} (g : Graph V) (h : Head V) (args : List (NodeArg V))
    (kwargs : List (String × NodeArg V)) : Except PyErr (Graph V × NodeId) :=
  match h with
  | .value v =>
    if args.isEmpty && kwargs.isEmpty then .ok (mkInputNode g v)
    else .error ConfigurationError
  | .func f => .ok (mkFnNode g f args kwargs)

/-- Modelled from the spec: register a view as an observer of a node, in
attachment order. -/
def add_view {V : Type} (g : Graph V) (n : NodeId) (v : ViewId) : Graph V :=
  g.modifyNode n (fun nd => { nd with views := nd.views ++ [v] })

/-- Modelled from the spec: append additional positional parents to an
existing node (auto-lifting raw values) and register the child
back-references; calling this on a pure input node raises
`ConfigurationError`. -/
def add_parents {V : Type} (g : Graph V) (n : NodeId) (args : List (NodeArg V)) :
    Except PyErr (Graph V) :=
  match g.find? n with
  | none => .error StaleReferenceError
  | some nd =>
    match nd.func with
    | .input _ => .error ConfigurationError
    | _ =>
      let ra := liftArgs g args
      let g2 := ra.1.modifyNode n (fun x => { x with parents := x.parents ++ ra.2 })
      .ok (ra.2.foldl (fun acc p => registerChild acc p n) g2)

/-- Erase a node from one parent's child registry. -/
def pruneChild {V : Type} (n : NodeId) (g : Graph V) (p : NodeId) : Graph V :=
  g.modifyNode p
    (fun pn => { pn with children := pn.children.filter (fun c => !(c == n)) })

/-- Modelled from the spec: detach a node from the graph — remove it from
every parent's child registry and clear its own parent, keyword-parent and
view collections. -/
def remove {V : Type} (g : Graph V) (n : NodeId) : Graph V :=
  match g.find? n with
  | none => g
  | some nd =>
    ((parentIds nd).foldl (pruneChild n) g).modifyNode n
      (fun x => { x with parents := [], kwparents := [], views := [] })

/-- Modelled from the spec: the widget-to-node adapter — a node whose body
reads the live state of an external control and which has no parents; the
control's change callback is modelled as invoking `notify_children` on this
node. -/
def widget_node {V : Type} (g : Graph V) (w : WidgetId) : Graph V × NodeId :=
  g.push { func := .widget w, parents := [], kwparents := [], children := [], views := [] }

/-- The external world: reading a widget's live value either yields the
current value or raises (for example when the control was disposed). -/
abbrev Env (V : Type) := WidgetId → Except PyErr V

/-- Evaluate a list of nodes left to right with a given single-node
evaluator, short-circuiting on the first raised exception; returns the
collected values and the concatenated execution trace.  `none` means the
evaluator ran out of fuel. -/
def evalList {V : Type} (ev : NodeId → Option (Except PyErr V × List NodeId)) :
    List NodeId → Option (Except PyErr (List V) × List NodeId)
  | [] => some (.ok [], [])
  | n :: rest =>
    match ev n with
    | none => none
    | some (.error e, tr) => some (.error e, tr)
    | some (.ok v, tr) =>
      match evalList ev rest with
      | none => none
      | some (.error e, tr2) => some (.error e, tr ++ tr2)
      | some (.ok vs, tr2) => some (.ok (v :: vs), tr ++ tr2)

/-- Evaluate keyword parents in insertion order with a given evaluator,
short-circuiting on the first raised exception. -/
def evalKwList {V : Type} (ev : NodeId → Option (Except PyErr V × List NodeId)) :
    List (String × NodeId) → Option (Except PyErr (List (String × V)) × List NodeId)
  | [] => some (.ok [], [])
  | kn :: rest =>
    match ev kn.2 with
    | none => none
    | some (.error e, tr) => some (.error e, tr)
    | some (.ok v, tr) =>
      match evalKwList ev rest with
      | none => none
      | some (.error e, tr2) => some (.error e, tr ++ tr2)
      | some (.ok kvs, tr2) => some (.ok ((kn.1, v) :: kvs), tr ++ tr2)

/-- Modelled from the spec: `request_data` — recursively evaluate every
positional parent in left-to-right order, then every keyword parent in
insertion order, and invoke the stored callable on the results.  Nothing is
cached.  Exceptions raised upstream propagate unmodified.  The function is
fuel-indexed (`none` means the fuel ran out, which on an acyclic graph only
happens when the fuel is smaller than the graph depth) and also returns the
trace of node identifiers whose evaluation began, in order. -/
def request_data {V : Type} (g : Graph V) (env : Env V) :
    Nat → NodeId → Option (Except PyErr V × List NodeId)
  | 0 => fun _ => none
  | fuel + 1 => fun n =>
    match g.find? n with
    | none => some (.error StaleReferenceError, [n])
    | some nd =>
      match nd.func with
      | .input v => some (.ok v, [n])
      | .widget w => some (env w, [n])
      | .fn f =>
        match evalList (fun p => request_data g env fuel p) nd.parents with
        | none => none
        | some (.error e, tr) => some (.error e, n :: tr)
        | some (.ok vs, tr) =>
          match evalKwList (fun p => request_data g env fuel p) nd.kwparents with
          | none => none
          | some (.error e, tr2) => some (.error e, n :: (tr ++ tr2))
          | some (.ok kvs, tr2) => some (f vs kvs, n :: (tr ++ tr2))

/-- The value returned by `request_data`, without the execution trace. -/
def request_value {V : Type} (g : Graph V) (env : Env V) (fuel : Nat) (n : NodeId) :
    Option (Except PyErr V) :=
  (request_data g env fuel n).map (fun r => r.1)

/-- Modelled from the spec: calling a node directly (`node()`) walks the
tree — it requests the pieces of data it needs from its parents and returns
the output of its internal callable.  Defined as one explicit pull step
whose recursive requests go through `request_data`. -/
def call {V : Type} (g : Graph V) (env : Env V) :
    Nat → NodeId → Option (Except PyErr V × List NodeId)
  | 0 => fun _ => none
  | fuel + 1 => fun n =>
    match g.find? n with
    | none => some (.error StaleReferenceError, [n])
    | some nd =>
      match nd.func with
      | .input v => some (.ok v, [n])
      | .widget w => some (env w, [n])
      | .fn f =>
        match evalList (fun p => request_data g env fuel p) nd.parents with
        | none => none
        | some (.error e, tr) => some (.error e, n :: tr)
        | some (.ok vs, tr) =>
          match evalKwList (fun p => request_data g env fuel p) nd.kwparents with
          | none => none
          | some (.error e, tr2) => some (.error e, n :: (tr ++ tr2))
          | some (.ok kvs, tr2) => some (f vs kvs, n :: (tr ++ tr2))

/-- Concatenate the notification events produced for each node of a list. -/
def notifyList {M : Type} (step : NodeId → List (ViewId × M)) :
    List NodeId → List (ViewId × M)
  | [] => []
  | n :: rest => step n ++ notifyList step rest

/-- Modelled from the spec: `notify_children` — propagate a change
notification to every directly attached view (in attachment order) and then
recursively to every child node, in registration order.  The result is the
list of `notify_view` events `(view, message)` produced, in order. -/
def notify_children {V M : Type} (g : Graph V) (msg : M) :
    Nat → NodeId → List (ViewId × M)
  | 0 => fun _ => []
  | fuel + 1 => fun n =>
    match g.find? n with
    | none => []
    | some nd =>
      nd.views.map (fun v => (v, msg)) ++
        notifyList (fun c => notify_children g msg fuel c) nd.children

/-- The arity-two callable behind an arithmetic operator on nodes. -/
def binop_func {V : Type} (op : V → V → V) : FnT V :=
  fun vs _ =>
    match vs with
    | [x, y] => .ok (op x y)
    | _ => .error TypeError

/-- Modelled from the spec: the `+` operator on nodes builds a new graph
node whose callable adds its two operands, auto-lifting a raw right operand
into an input node. -/
def node_add {V : Type} [Add V] (g : Graph V) (a : NodeId) (other : NodeArg V) :
    Graph V × NodeId :=
  mkFnNode g (binop_func (fun x y => x + y)) [.ofNode a, other] []

/-- Modelled from the spec: the `*` operator on nodes builds a new graph
node whose callable multiplies its two operands, auto-lifting a raw right
operand into an input node. -/
def node_mul {V : Type} [Mul V] (g : Graph V) (a : NodeId) (other : NodeArg V) :
    Graph V × NodeId :=
  mkFnNode g (binop_func (fun x y => x * y)) [.ofNode a, other] []

/-- A node record is well formed inside a graph when a non-callable body has
no parents and every referenced parent exists. -/
def nodeWf {V : Type} (g : Graph V) (nd : Node V) : Bool :=
  (match nd.func with
   | .fn _ => true
   | _ => nd.parents.isEmpty && nd.kwparents.isEmpty) &&
  (parentIds nd).all (fun p => (g.find? p).isSome)

/-- A graph is well formed when every stored node record is. -/
def Graph.wf {V : Type} (g : Graph V) : Bool :=
  g.nodes.all (fun p => nodeWf g p.2)

/-- A graph is widget-free when no node reads external widget state. -/
def Graph.widgetFree {V : Type} (g : Graph V) : Bool :=
  g.nodes.all (fun p => !(p.2.func.isWidget))

/-- Membership of a node strictly upstream of another: reachability through
one or more parent (positional or keyword) edges. -/
inductive UpstreamOf {V : Type} (g : Graph V) (m : NodeId) : NodeId → Prop where
  | direct (n : NodeId) (nd : Node V) (hfind : g.find? n = some nd)
      (hmem : m ∈ parentIds nd) : UpstreamOf g m n
  | step (n p : NodeId) (nd : Node V) (hfind : g.find? n = some nd)
      (hmem : p ∈ parentIds nd) (hup : UpstreamOf g m p) : UpstreamOf g m n

/-- A callable body that can never raise under a given environment. -/
def FuncTotal {V : Type} (env : Env V) : Func V → Prop
  | .input _ => True
  | .widget w => ∃ v, env w = Except.ok v
  | .fn f => ∀ vs kvs, ∃ v, f vs kvs = Except.ok v

/-- A trace is closed when it contains, with every node it mentions, all of
that node's parents. -/
def traceClosed {V : Type} (g : Graph V) (tr : List NodeId) : Prop :=
  ∀ m ndm, m ∈ tr → g.find? m = some ndm → ∀ p, p ∈ parentIds ndm → p ∈ tr

/-- Every stored identifier is below the fresh counter, so freshly pushed
nodes never collide with existing ones. -/
def Graph.freshOk {V : Type} (g : Graph V) : Bool :=
  g.nodes.all (fun p => p.1 < g.fresh)

/-- The chain scenario of the claims: an input node `A`, a function node
`B` depending on `A`, a function node `C` depending on `B`, and a single
view attached to `C`.  Returns the graph and the identifiers of `A`, `B`
and `C`. -/
def chainGraph {V : Type} (v : V) (f h : FnT V) (vid : ViewId) :
    Graph V × NodeId × NodeId × NodeId :=
  let ra := mkInputNode (Graph.empty (V := V)) v
  let rb := mkFnNode ra.1 f [.ofNode ra.2] []
  let rc := mkFnNode rb.1 h [.ofNode rb.2] []
  (add_view rc.1 rc.2 vid, ra.2, rb.2, rc.2)

/-- The node `Node(f, v, y=w)` built with raw (auto-lifted) arguments. -/
def liftedRawNode {V : Type} (f : FnT V) (v w : V) : Graph V × NodeId :=
  mkFnNode (Graph.empty (V := V)) f [.raw v] [(kwy, .raw w)]

/-- The node `Node(f, Node(v), y=Node(w))` built with explicitly wrapped
input nodes. -/
def liftedWrappedNode {V : Type} (f : FnT V) (v w : V) : Graph V × NodeId :=
  let ra := mkInputNode (Graph.empty (V := V)) v
  let rb := mkInputNode ra.1 w
  mkFnNode rb.1 f [.ofNode ra.2] [(kwy, .ofNode rb.2)]

/-- The scenario `Node(f, a, b)` over two input nodes `a` and `b`; returns
the graph and the identifiers of `a`, `b` and the new node. -/
def twoParentNode {V : Type} (f : FnT V) (va vb : V) :
    Graph V × NodeId × NodeId × NodeId :=
  let ra := mkInputNode (Graph.empty (V := V)) va
  let rb := mkInputNode ra.1 vb
  let rc := mkFnNode rb.1 f [.ofNode ra.2, .ofNode rb.2] []
  (rc.1, ra.2, rb.2, rc.2)

/-- The scenario `Node(f, b, a)`: same two input nodes, constructed with the
parents swapped. -/
def twoParentNodeSwapped {V : Type} (f : FnT V) (va vb : V) :
    Graph V × NodeId × NodeId × NodeId :=
  let ra := mkInputNode (Graph.empty (V := V)) va
  let rb := mkInputNode ra.1 vb
  let rc := mkFnNode rb.1 f [.ofNode rb.2, .ofNode ra.2] []
  (rc.1, ra.2, rb.2, rc.2)

/-- The widget scenario of the claims: a widget-backed node wrapping the
control `w`, with a single view attached.  Returns the graph and the
adapter node's identifier. -/
def widgetScenario {V : Type} (w : WidgetId) (vid : ViewId) : Graph V × NodeId :=
  let r := widget_node (Graph.empty (V := V)) w
  (add_view r.1 r.2 vid, r.2)

/-- Two input nodes `a` and `b` holding `va` and `vb`, the operands of the
operator claims.  Returns the graph and the identifiers of `a` and `b`. -/
def opInputs {V : Type} (va vb : V) : Graph V × NodeId × NodeId :=
  let ra := mkInputNode (Graph.empty (V := V)) va
  let rb := mkInputNode ra.1 vb
  (rb.1, ra.2, rb.2)

/-- A non-commutative concrete callable for witnesses: subtracts its second
positional argument from its first. -/
def subF : FnT Int :=
  fun vs _ =>
    match vs with
    | [x, y] => .ok (x - y)
    | _ => .error TypeError

/-- A concrete callable that always raises `ValueError`. -/
def raiseF : FnT Int := fun _ _ => .error ValueError

/-- A concrete total callable returning zero. -/
def zeroF : FnT Int := fun _ _ => .ok 0

/-- The error scenario for witnesses: node `m` whose callable always raises
`ValueError`, and a downstream node depending on it.  Returns the graph and
the identifiers of `m` and the downstream node. -/
def errScenario : Graph Int × NodeId × NodeId :=
  let rm := mkFnNode (Graph.empty (V := Int)) raiseF [] []
  let rn := mkFnNode rm.1 zeroF [.ofNode rm.2] []
  (rn.1, rm.2, rn.2)

/-- The node record of the to-be-removed node in `removeScenario`. -/
def removedNodeRec : Node Int :=
  { func := .fn zeroF, parents := [0], kwparents := [], children := [],
    views := [5] }

/-- The removal scenario for witnesses: an input node, a dependent function
node carrying one attached view.  Returns the graph, the parent id and the
removed node's id. -/
def removeScenario : Graph Int × NodeId × NodeId :=
  let ra := mkInputNode (Graph.empty (V := Int)) 1
  let rn := mkFnNode ra.1 zeroF [.ofNode ra.2] []
  (add_view rn.1 rn.2 5, ra.2, rn.2)

/-- C1: in the chain `A -> B -> C` (`C` depends on `B`, which depends on
`A`) with exactly one view attached to `C`, a single `notify_children` call
on `A` produces exactly the single event notifying `C`'s view — the
notification reaches every descendant's views, each exactly once.  The fuel
`k + 3` ranges over every amount sufficient for the depth-3 chain. -/
theorem spec2proof_C1 {V M : Type} (v : V) (f h : FnT V) (vid : ViewId)
    (msg : M) (k : Nat) :
    notify_children (chainGraph v f h vid).1 msg (k + 3) (chainGraph v f h vid).2.1
      = [(vid, msg)] ∧
    ((notify_children (chainGraph v f h vid).1 msg (k + 3)
        (chainGraph v f h vid).2.1).filter (fun ev => ev.1 == vid)).length = 1 := by
  have hev : notify_children (chainGraph v f h vid).1 msg (k + 3)
      (chainGraph v f h vid).2.1 = [(vid, msg)] := rfl
  refine ⟨hev, ?_⟩
  rw [hev]
  simp

/-- C3: `Node(f, v, y=w)` behaves identically under `request_data` to
`Node(f, Node(v), y=Node(w))` — both evaluate to `f(v, y=w)`; raw
positional and keyword arguments are auto-lifted into fresh input nodes in
order. -/
theorem spec2proof_C3 {V : Type} (f : FnT V) (v w : V) (env : Env V) (k : Nat) :
    request_value (liftedRawNode f v w).1 env (k + 2) (liftedRawNode f v w).2
      = some (f [v] [(kwy, w)]) ∧
    request_value (liftedWrappedNode f v w).1 env (k + 2) (liftedWrappedNode f v w).2
      = some (f [v] [(kwy, w)]) ∧
    request_data (liftedRawNode f v w).1 env (k + 2) (liftedRawNode f v w).2
      = request_data (liftedWrappedNode f v w).1 env (k + 2)
          (liftedWrappedNode f v w).2 :=
  ⟨rfl, rfl, rfl⟩

/-- C4: `Node(f, a, b).request_data()` invokes `f` with `a`'s value first
and `b`'s value second, the execution trace evaluates `a` strictly before
`b`, and for a non-commutative `f` the swapped construction `Node(f, b, a)`
yields a different result. -/
theorem spec2proof_C4 {V : Type} (f : FnT V) (va vb : V) (env : Env V) (k : Nat) :
    request_data (twoParentNode f va vb).1 env (k + 2) (twoParentNode f va vb).2.2.2
      = some (f [va, vb] [],
          [(twoParentNode f va vb).2.2.2, (twoParentNode f va vb).2.1,
           (twoParentNode f va vb).2.2.1]) ∧
    request_data (twoParentNodeSwapped f va vb).1 env (k + 2)
        (twoParentNodeSwapped f va vb).2.2.2
      = some (f [vb, va] [],
          [(twoParentNodeSwapped f va vb).2.2.2, (twoParentNodeSwapped f va vb).2.2.1,
           (twoParentNodeSwapped f va vb).2.1]) ∧
    (f [va, vb] [] ≠ f [vb, va] [] →
      request_value (twoParentNode f va vb).1 env (k + 2) (twoParentNode f va vb).2.2.2
        ≠ request_value (twoParentNodeSwapped f va vb).1 env (k + 2)
            (twoParentNodeSwapped f va vb).2.2.2) :=
  ⟨rfl, rfl, fun hne heq => hne (Option.some.inj heq)⟩

/-- C4 witness: at the concrete non-commutative subtraction on integers,
the hypothesis of the swap clause holds and the two constructions disagree. -/
theorem spec2proof_C4_witness :
    (subF [(10 : Int), 20] [] ≠ subF [(20 : Int), 10] []) ∧
    request_value (twoParentNode subF (10 : Int) 20).1 (fun _ => .error ValueError) 2
        (twoParentNode subF (10 : Int) 20).2.2.2
      ≠ request_value (twoParentNodeSwapped subF (10 : Int) 20).1
          (fun _ => .error ValueError) 2
          (twoParentNodeSwapped subF (10 : Int) 20).2.2.2 := by
  have hne : subF [(10 : Int), 20] [] ≠ subF [(20 : Int), 10] [] := by
    simp [subF]
  exact ⟨hne,
    (spec2proof_C4 subF 10 20 (fun _ => .error ValueError) 0).2.2 hne⟩

/-- C7: the widget-backed node returns the live control value at call time
— with the control reading `five` it returns `five`, after external
mutation to `nine` it returns `nine` — and firing the control's change
event (a `notify_children` call on the adapter node) notifies the attached
view exactly once. -/
theorem spec2proof_C7 {V M : Type} (w : WidgetId) (vid : ViewId) (five nine : V)
    (env1 env2 : Env V) (msg : M) (k k2 : Nat)
    (h1 : env1 w = .ok five) (h2 : env2 w = .ok nine) :
    request_value (widgetScenario (V := V) w vid).1 env1 (k + 1)
        (widgetScenario (V := V) w vid).2 = some (.ok five) ∧
    request_value (widgetScenario (V := V) w vid).1 env2 (k + 1)
        (widgetScenario (V := V) w vid).2 = some (.ok nine) ∧
    notify_children (widgetScenario (V := V) w vid).1 msg (k2 + 1)
        (widgetScenario (V := V) w vid).2 = [(vid, msg)] := by
  refine ⟨?_, ?_, rfl⟩
  · show some (env1 w) = some (Except.ok five)
    rw [h1]
  · show some (env2 w) = some (Except.ok nine)
    rw [h2]

/-- C7 witness: the concrete control with value 5 then 9, and the single
`notify_view` event. -/
theorem spec2proof_C7_witness :
    ((fun _ => Except.ok 5 : Env Int) 0 = Except.ok 5) ∧
    ((fun _ => Except.ok 9 : Env Int) 0 = Except.ok 9) ∧
    request_value (widgetScenario (V := Int) 0 7).1 (fun _ => .ok 5) 1
        (widgetScenario (V := Int) 0 7).2 = some (.ok 5) ∧
    request_value (widgetScenario (V := Int) 0 7).1 (fun _ => .ok 9) 1
        (widgetScenario (V := Int) 0 7).2 = some (.ok 9) ∧
    notify_children (widgetScenario (V := Int) 0 7).1 "update" 1
        (widgetScenario (V := Int) 0 7).2 = [(7, "update")] :=
  ⟨rfl, rfl,
    spec2proof_C7 0 7 5 9 (fun _ => .ok 5) (fun _ => .ok 9) "update" 0 0 rfl rfl⟩

/-- C9: invoking a node directly as a callable is equivalent to calling
`request_data` on it — same value and the same recursive evaluation of the
upstream subgraph. -/
theorem spec2proof_C9 {V : Type} (g : Graph V) (env : Env V) (fuel : Nat)
    (n : NodeId) : call g env fuel n = request_data g env fuel n := by
  cases fuel with
  | zero => rfl
  | succ k => rfl

/-- C10: the arithmetic operators on nodes build new graph nodes rather
than evaluating eagerly — `a + b` is a node with parents `a` and `b` whose
`request_data` equals the sum of `a`'s and `b`'s values, and `a * w` for a
raw `w` auto-wraps `w` into a fresh input node before building the result
node. -/
theorem spec2proof_C10 {V : Type} [Add V] [Mul V] (va vb w : V) (env : Env V)
    (k : Nat) :
    (node_add (opInputs va vb).1 (opInputs va vb).2.1
        (.ofNode (opInputs va vb).2.2)).1.find?
        (node_add (opInputs va vb).1 (opInputs va vb).2.1
          (.ofNode (opInputs va vb).2.2)).2
      = some { func := .fn (binop_func (fun x y => x + y)),
               parents := [(opInputs va vb).2.1, (opInputs va vb).2.2],
               kwparents := [], children := [], views := [] } ∧
    request_value (node_add (opInputs va vb).1 (opInputs va vb).2.1
        (.ofNode (opInputs va vb).2.2)).1 env (k + 2)
        (node_add (opInputs va vb).1 (opInputs va vb).2.1
          (.ofNode (opInputs va vb).2.2)).2
      = some (.ok (va + vb)) ∧
    request_value (opInputs va vb).1 env (k + 2) (opInputs va vb).2.1
      = some (.ok va) ∧
    request_value (opInputs va vb).1 env (k + 2) (opInputs va vb).2.2
      = some (.ok vb) ∧
    (node_mul (opInputs va vb).1 (opInputs va vb).2.1 (.raw w)).1.find? 2
      = some { func := .input w, parents := [], kwparents := [],
               children := [(node_mul (opInputs va vb).1 (opInputs va vb).2.1
                 (.raw w)).2],
               views := [] } ∧
    request_value (node_mul (opInputs va vb).1 (opInputs va vb).2.1 (.raw w)).1
        env (k + 2)
        (node_mul (opInputs va vb).1 (opInputs va vb).2.1 (.raw w)).2
      = some (.ok (va * w)) :=
  ⟨rfl, rfl, rfl, rfl, rfl, rfl⟩

/-- A successful association-list lookup returns a stored binding. -/
theorem assoc_find?_mem {V : Type} {n : NodeId} {nd : Node V} :
    ∀ {l : List (NodeId × Node V)},
    ((l.find? (fun p => p.1 == n)).map (fun p => p.2)) = some nd → (n, nd) ∈ l := by
  intro l
  induction l with
  | nil => intro h; simp at h
  | cons a rest ih =>
    intro h
    by_cases ha : (a.1 == n) = true
    · simp only [List.find?_cons, ha, Option.map_some'] at h
      have h1 : a.1 = n := by simpa using ha
      have h2 : a.2 = nd := by simpa using h
      have : a = (n, nd) := by
        obtain ⟨x, y⟩ := a
        simp only at h1 h2
        rw [h1, h2]
      rw [← this]
      exact List.mem_cons_self a rest
    · have ha2 : (a.1 == n) = false := by
        cases hb : (a.1 == n) with
        | false => rfl
        | true => exact absurd hb ha
      simp only [List.find?_cons, ha2] at h
      exact List.mem_cons_of_mem a (ih h)

/-- A successful lookup returns a stored binding. -/
theorem find?_mem {V : Type} {g : Graph V} {n : NodeId} {nd : Node V}
    (hfind : g.find? n = some nd) : (n, nd) ∈ g.nodes := by
  unfold Graph.find? at hfind
  exact assoc_find?_mem hfind

/-- In a well-formed graph, every parent referenced by a stored node exists. -/
theorem wf_parents_exist {V : Type} {g : Graph V} {n : NodeId} {nd : Node V}
    (hwf : g.wf = true) (hfind : g.find? n = some nd) {p : NodeId}
    (hp : p ∈ parentIds nd) : (g.find? p).isSome = true := by
  have h1 := (List.all_eq_true.mp hwf) _ (find?_mem hfind)
  unfold nodeWf at h1
  rw [Bool.and_eq_true] at h1
  exact (List.all_eq_true.mp h1.2) _ hp

/-- In a well-formed graph, a node whose body is not a callable has no
parents at all. -/
theorem wf_no_phantom {V : Type} {g : Graph V} {n : NodeId} {nd : Node V}
    (hwf : g.wf = true) (hfind : g.find? n = some nd)
    (hnf : ∀ f, nd.func ≠ Func.fn f) : parentIds nd = [] := by
  have h1 := (List.all_eq_true.mp hwf) _ (find?_mem hfind)
  unfold nodeWf at h1
  rw [Bool.and_eq_true] at h1
  have h2 := h1.1
  cases hf : nd.func with
  | input v =>
    rw [hf] at h2
    simp only [Bool.and_eq_true, List.isEmpty_iff] at h2
    unfold parentIds
    rw [h2.1, h2.2]
    rfl
  | fn f => exact absurd hf (hnf f)
  | widget w =>
    rw [hf] at h2
    simp only [Bool.and_eq_true, List.isEmpty_iff] at h2
    unfold parentIds
    rw [h2.1, h2.2]
    rfl

/-- In a widget-free graph, no stored node reads widget state. -/
theorem widgetFree_not_widget {V : Type} {g : Graph V}
    (hfree : g.widgetFree = true) {n : NodeId} {nd : Node V}
    (hfind : g.find? n = some nd) : nd.func.isWidget = false := by
  have h1 := (List.all_eq_true.mp hfree) _ (find?_mem hfind)
  simpa using h1

/-- Pointwise equal evaluators evaluate parent lists identically. -/
theorem evalList_congr {V : Type}
    {ev1 ev2 : NodeId → Option (Except PyErr V × List NodeId)}
    (h : ∀ n, ev1 n = ev2 n) : ∀ l, evalList ev1 l = evalList ev2 l := by
  intro l
  induction l with
  | nil => rfl
  | cons n rest ih =>
    unfold evalList
    rw [h n, ih]

/-- Pointwise equal evaluators evaluate keyword-parent lists identically. -/
theorem evalKwList_congr {V : Type}
    {ev1 ev2 : NodeId → Option (Except PyErr V × List NodeId)}
    (h : ∀ n, ev1 n = ev2 n) : ∀ l, evalKwList ev1 l = evalKwList ev2 l := by
  intro l
  induction l with
  | nil => rfl
  | cons kn rest ih =>
    unfold evalKwList
    rw [h kn.2, ih]

/-- On a widget-free graph, evaluation does not depend on the external
widget environment at all: the result of `request_data` is identical under
any two environments. -/
theorem request_data_env_irrel {V : Type} {g : Graph V}
    (hfree : g.widgetFree = true) (env1 env2 : Env V) :
    ∀ (fuel : Nat) (n : NodeId),
    request_data g env1 fuel n = request_data g env2 fuel n := by
  intro fuel
  induction fuel with
  | zero => intro n; rfl
  | succ fl ih =>
    intro n
    unfold request_data
    cases hfn : g.find? n with
    | none => rfl
    | some nd =>
      dsimp only
      cases hfu : nd.func with
      | input v => rfl
      | widget w =>
        exfalso
        have hw := widgetFree_not_widget hfree hfn
        rw [hfu] at hw
        simp [Func.isWidget] at hw
      | fn f =>
        dsimp only
        have h1 : evalList (fun p => request_data g env1 fl p) nd.parents
            = evalList (fun p => request_data g env2 fl p) nd.parents :=
          evalList_congr (fun p => ih p) nd.parents
        have h2 : evalKwList (fun p => request_data g env1 fl p) nd.kwparents
            = evalKwList (fun p => request_data g env2 fl p) nd.kwparents :=
          evalKwList_congr (fun p => ih p) nd.kwparents
        rw [h1, h2]

/-- If every successful single-node evaluation yields a closed trace
containing its node, so does a successful positional-parent list
evaluation, whose trace moreover contains every listed node. -/
theorem evalList_trace_closed {V : Type} {g : Graph V}
    {ev : NodeId → Option (Except PyErr V × List NodeId)}
    (hev : ∀ p v tr, ev p = some (.ok v, tr) → p ∈ tr ∧ traceClosed g tr) :
    ∀ {l : List NodeId} {vs : List V} {tr : List NodeId},
    evalList ev l = some (.ok vs, tr) →
    (∀ p, p ∈ l → p ∈ tr) ∧ traceClosed g tr := by
  intro l
  induction l with
  | nil =>
    intro vs tr h
    unfold evalList at h
    simp only [Option.some.injEq, Prod.mk.injEq] at h
    obtain ⟨-, htr⟩ := h
    subst htr
    exact ⟨fun p hp => absurd hp (List.not_mem_nil p), fun m ndm hm _ _ _ => absurd hm (List.not_mem_nil m)⟩
  | cons p rest ih =>
    intro vs tr h
    unfold evalList at h
    cases hp : ev p with
    | none => rw [hp] at h; simp at h
    | some r =>
      rw [hp] at h
      obtain ⟨res1, tr1⟩ := r
      cases res1 with
      | error e => simp at h
      | ok v =>
        cases hrest : evalList ev rest with
        | none => rw [hrest] at h; simp at h
        | some r2 =>
          rw [hrest] at h
          obtain ⟨res2, tr2⟩ := r2
          cases res2 with
          | error e => simp at h
          | ok vs2 =>
            simp only [Option.some.injEq, Prod.mk.injEq] at h
            obtain ⟨-, htr⟩ := h
            subst htr
            obtain ⟨hp1, hp2⟩ := hev p v tr1 hp
            obtain ⟨hr1, hr2⟩ := ih hrest
            constructor
            · intro q hq
              rcases List.mem_cons.mp hq with hq1 | hq2
              · subst hq1; exact List.mem_append_left tr2 hp1
              · exact List.mem_append_right tr1 (hr1 q hq2)
            · intro m ndm hm hfindm pp hpp
              rcases List.mem_append.mp hm with hm1 | hm2
              · exact List.mem_append_left tr2 (hp2 m ndm hm1 hfindm pp hpp)
              · exact List.mem_append_right tr1 (hr2 m ndm hm2 hfindm pp hpp)

/-- Keyword version of `evalList_trace_closed`. -/
theorem evalKwList_trace_closed {V : Type} {g : Graph V}
    {ev : NodeId → Option (Except PyErr V × List NodeId)}
    (hev : ∀ p v tr, ev p = some (.ok v, tr) → p ∈ tr ∧ traceClosed g tr) :
    ∀ {l : List (String × NodeId)} {kvs : List (String × V)} {tr : List NodeId},
    evalKwList ev l = some (.ok kvs, tr) →
    (∀ kp, kp ∈ l → kp.2 ∈ tr) ∧ traceClosed g tr := by
  intro l
  induction l with
  | nil =>
    intro kvs tr h
    unfold evalKwList at h
    simp only [Option.some.injEq, Prod.mk.injEq] at h
    obtain ⟨-, htr⟩ := h
    subst htr
    exact ⟨fun p hp => absurd hp (List.not_mem_nil p), fun m ndm hm _ _ _ => absurd hm (List.not_mem_nil m)⟩
  | cons kp rest ih =>
    intro kvs tr h
    unfold evalKwList at h
    cases hp : ev kp.2 with
    | none => rw [hp] at h; simp at h
    | some r =>
      rw [hp] at h
      obtain ⟨res1, tr1⟩ := r
      cases res1 with
      | error e => simp at h
      | ok v =>
        cases hrest : evalKwList ev rest with
        | none => rw [hrest] at h; simp at h
        | some r2 =>
          rw [hrest] at h
          obtain ⟨res2, tr2⟩ := r2
          cases res2 with
          | error e => simp at h
          | ok kvs2 =>
            simp only [Option.some.injEq, Prod.mk.injEq] at h
            obtain ⟨-, htr⟩ := h
            subst htr
            obtain ⟨hp1, hp2⟩ := hev kp.2 v tr1 hp
            obtain ⟨hr1, hr2⟩ := ih hrest
            constructor
            · intro q hq
              rcases List.mem_cons.mp hq with hq1 | hq2
              · subst hq1; exact List.mem_append_left tr2 hp1
              · exact List.mem_append_right tr1 (hr1 q hq2)
            · intro m ndm hm hfindm pp hpp
              rcases List.mem_append.mp hm with hm1 | hm2
              · exact List.mem_append_left tr2 (hp2 m ndm hm1 hfindm pp hpp)
              · exact List.mem_append_right tr1 (hr2 m ndm hm2 hfindm pp hpp)

/-- A successful `request_data` call executes the entire upstream subgraph:
its trace contains the requested node and, with every node it contains, all
of that node's parents. -/
theorem request_data_trace_closed {V : Type} {g : Graph V} {env : Env V}
    (hwf : g.wf = true) :
    ∀ (fuel : Nat) (n : NodeId) (v : V) (tr : List NodeId),
    request_data g env fuel n = some (.ok v, tr) →
    n ∈ tr ∧ traceClosed g tr := by
  intro fuel
  induction fuel with
  | zero =>
    intro n v tr h
    exact absurd h (by simp [request_data])
  | succ fl ih =>
    intro n v tr h
    unfold request_data at h
    cases hfn : g.find? n with
    | none => rw [hfn] at h; simp at h
    | some nd =>
      rw [hfn] at h
      dsimp only at h
      cases hfu : nd.func with
      | input w =>
        rw [hfu] at h
        dsimp only at h
        simp only [Option.some.injEq, Prod.mk.injEq] at h
        obtain ⟨-, htr⟩ := h
        subst htr
        refine ⟨List.mem_singleton.mpr rfl, ?_⟩
        intro m ndm hm hfindm pp hpp
        have hm2 : m = n := List.mem_singleton.mp hm
        subst hm2
        rw [hfn] at hfindm
        injection hfindm with hnd
        subst hnd
        have hpar := wf_no_phantom hwf hfn (by rw [hfu]; intro f hf; exact Func.noConfusion hf)
        rw [hpar] at hpp
        exact absurd hpp (List.not_mem_nil pp)
      | widget w =>
        rw [hfu] at h
        dsimp only at h
        simp only [Option.some.injEq, Prod.mk.injEq] at h
        obtain ⟨-, htr⟩ := h
        subst htr
        refine ⟨List.mem_singleton.mpr rfl, ?_⟩
        intro m ndm hm hfindm pp hpp
        have hm2 : m = n := List.mem_singleton.mp hm
        subst hm2
        rw [hfn] at hfindm
        injection hfindm with hnd
        subst hnd
        have hpar := wf_no_phantom hwf hfn (by rw [hfu]; intro f hf; exact Func.noConfusion hf)
        rw [hpar] at hpp
        exact absurd hpp (List.not_mem_nil pp)
      | fn f =>
        rw [hfu] at h
        dsimp only at h
        cases hl : evalList (fun p => request_data g env fl p) nd.parents with
        | none => rw [hl] at h; simp at h
        | some r1 =>
          rw [hl] at h
          obtain ⟨res1, tr1⟩ := r1
          cases res1 with
          | error e => simp at h
          | ok vs =>
            cases hk : evalKwList (fun p => request_data g env fl p) nd.kwparents with
            | none => rw [hk] at h; simp at h
            | some r2 =>
              rw [hk] at h
              obtain ⟨res2, tr2⟩ := r2
              cases res2 with
              | error e => simp at h
              | ok kvs =>
                simp only [Option.some.injEq, Prod.mk.injEq] at h
                obtain ⟨-, htr⟩ := h
                subst htr
                have hL := evalList_trace_closed (fun p pv ptr hp => ih p pv ptr hp) hl
                have hK := evalKwList_trace_closed (fun p pv ptr hp => ih p pv ptr hp) hk
                refine ⟨List.mem_cons_self n (tr1 ++ tr2), ?_⟩
                intro m ndm hm hfindm pp hpp
                rcases List.mem_cons.mp hm with hm1 | hm2
                · subst hm1
                  rw [hfn] at hfindm
                  injection hfindm with hnd
                  subst hnd
                  rcases List.mem_append.mp hpp with hpp1 | hpp2
                  · exact List.mem_cons_of_mem m (List.mem_append_left tr2 (hL.1 pp hpp1))
                  · obtain ⟨kp, hkp, hkp2⟩ := List.mem_map.mp hpp2
                    subst hkp2
                    exact List.mem_cons_of_mem m (List.mem_append_right tr1 (hK.1 kp hkp))
                · rcases List.mem_append.mp hm2 with hm3 | hm4
                  · exact List.mem_cons_of_mem n (List.mem_append_left tr2
                      (hL.2 m ndm hm3 hfindm pp hpp))
                  · exact List.mem_cons_of_mem n (List.mem_append_right tr1
                      (hK.2 m ndm hm4 hfindm pp hpp))

/-- C2: on a widget-free, well-formed graph (pure callables are intrinsic
to the embedding), `request_data` returns the same result on every call —
formalised as full independence from the mutable external environment — and
no result is cached: every successful call executes the requested node and,
recursively, every parent of every node it executes. -/
theorem spec2proof_C2 {V : Type} (g : Graph V) (env1 env2 : Env V) (fuel : Nat)
    (n : NodeId) (hfree : g.widgetFree = true) (hwf : g.wf = true) :
    request_data g env1 fuel n = request_data g env2 fuel n ∧
    (∀ v tr, request_data g env1 fuel n = some (.ok v, tr) →
      n ∈ tr ∧ traceClosed g tr) :=
  ⟨request_data_env_irrel hfree env1 env2 fuel n,
   fun v tr h => request_data_trace_closed hwf fuel n v tr h⟩

/-- C2 witness: the concrete two-parent graph, queried under two different
environments, with the closure of its concrete trace. -/
theorem spec2proof_C2_witness :
    (twoParentNode subF (10 : Int) 20).1.widgetFree = true ∧
    (twoParentNode subF (10 : Int) 20).1.wf = true ∧
    (request_data (twoParentNode subF (10 : Int) 20).1 (fun _ => .ok 0) 2
        (twoParentNode subF (10 : Int) 20).2.2.2
      = request_data (twoParentNode subF (10 : Int) 20).1
          (fun _ => .error ValueError) 2 (twoParentNode subF (10 : Int) 20).2.2.2 ∧
    (∀ v tr, request_data (twoParentNode subF (10 : Int) 20).1 (fun _ => .ok 0) 2
        (twoParentNode subF (10 : Int) 20).2.2.2 = some (.ok v, tr) →
      (twoParentNode subF (10 : Int) 20).2.2.2 ∈ tr ∧
        traceClosed (twoParentNode subF (10 : Int) 20).1 tr)) :=
  ⟨rfl, rfl,
    spec2proof_C2 (twoParentNode subF (10 : Int) 20).1 (fun _ => .ok 0)
      (fun _ => .error ValueError) 2 (twoParentNode subF (10 : Int) 20).2.2.2 rfl rfl⟩

/-- If every node of a list can only evaluate to a success or to the error
`e`, a failing list evaluation fails with exactly `e`. -/
theorem evalList_error_from {V : Type}
    {ev : NodeId → Option (Except PyErr V × List NodeId)} {e : PyErr} :
    ∀ {l : List NodeId},
    (∀ p, p ∈ l → ∀ res tr, ev p = some (res, tr) →
      (∃ v, res = Except.ok v) ∨ res = Except.error e) →
    ∀ {e2 : PyErr} {tr : List NodeId},
    evalList ev l = some (.error e2, tr) → e2 = e := by
  intro l
  induction l with
  | nil => intro _ e2 tr h; unfold evalList at h; simp at h
  | cons p rest ih =>
    intro hall e2 tr h
    unfold evalList at h
    cases hp : ev p with
    | none => rw [hp] at h; simp at h
    | some r =>
      rw [hp] at h
      obtain ⟨res1, tr1⟩ := r
      cases res1 with
      | error e3 =>
        simp only [Option.some.injEq, Prod.mk.injEq] at h
        obtain ⟨he, -⟩ := h
        rcases hall p (List.mem_cons_self p rest) _ _ hp with ⟨v, hv⟩ | herr
        · exact absurd hv (by simp)
        · injection herr with h1
          injection he with h2
          subst h2
          exact h1
      | ok v =>
        cases hrest : evalList ev rest with
        | none => rw [hrest] at h; simp at h
        | some r2 =>
          rw [hrest] at h
          obtain ⟨res2, tr2⟩ := r2
          cases res2 with
          | error e3 =>
            simp only [Option.some.injEq, Prod.mk.injEq] at h
            obtain ⟨he, -⟩ := h
            injection he with h2
            subst h2
            exact ih (fun q hq => hall q (List.mem_cons_of_mem p hq)) hrest
          | ok vs => simp at h

/-- Keyword version of `evalList_error_from`. -/
theorem evalKwList_error_from {V : Type}
    {ev : NodeId → Option (Except PyErr V × List NodeId)} {e : PyErr} :
    ∀ {l : List (String × NodeId)},
    (∀ kp, kp ∈ l → ∀ res tr, ev kp.2 = some (res, tr) →
      (∃ v, res = Except.ok v) ∨ res = Except.error e) →
    ∀ {e2 : PyErr} {tr : List NodeId},
    evalKwList ev l = some (.error e2, tr) → e2 = e := by
  intro l
  induction l with
  | nil => intro _ e2 tr h; unfold evalKwList at h; simp at h
  | cons kp rest ih =>
    intro hall e2 tr h
    unfold evalKwList at h
    cases hp : ev kp.2 with
    | none => rw [hp] at h; simp at h
    | some r =>
      rw [hp] at h
      obtain ⟨res1, tr1⟩ := r
      cases res1 with
      | error e3 =>
        simp only [Option.some.injEq, Prod.mk.injEq] at h
        obtain ⟨he, -⟩ := h
        rcases hall kp (List.mem_cons_self kp rest) _ _ hp with ⟨v, hv⟩ | herr
        · exact absurd hv (by simp)
        · injection herr with h1
          injection he with h2
          subst h2
          exact h1
      | ok v =>
        cases hrest : evalKwList ev rest with
        | none => rw [hrest] at h; simp at h
        | some r2 =>
          rw [hrest] at h
          obtain ⟨res2, tr2⟩ := r2
          cases res2 with
          | error e3 =>
            simp only [Option.some.injEq, Prod.mk.injEq] at h
            obtain ⟨he, -⟩ := h
            injection he with h2
            subst h2
            exact ih (fun q hq => hall q (List.mem_cons_of_mem kp hq)) hrest
          | ok kvs => simp at h

/-- A successful list evaluation means every listed node evaluated
successfully. -/
theorem evalList_ok_mem {V : Type}
    {ev : NodeId → Option (Except PyErr V × List NodeId)} :
    ∀ {l : List NodeId} {vs : List V} {tr : List NodeId},
    evalList ev l = some (.ok vs, tr) →
    ∀ p, p ∈ l → ∃ v tr1, ev p = some (.ok v, tr1) := by
  intro l
  induction l with
  | nil => intro vs tr _ p hp; exact absurd hp (List.not_mem_nil p)
  | cons q rest ih =>
    intro vs tr h p hp
    unfold evalList at h
    cases hq : ev q with
    | none => rw [hq] at h; simp at h
    | some r =>
      rw [hq] at h
      obtain ⟨res1, tr1⟩ := r
      cases res1 with
      | error e => simp at h
      | ok v =>
        cases hrest : evalList ev rest with
        | none => rw [hrest] at h; simp at h
        | some r2 =>
          rw [hrest] at h
          obtain ⟨res2, tr2⟩ := r2
          cases res2 with
          | error e => simp at h
          | ok vs2 =>
            rcases List.mem_cons.mp hp with hp1 | hp2
            · subst hp1; exact ⟨v, tr1, hq⟩
            · exact ih hrest p hp2

/-- Keyword version of `evalList_ok_mem`. -/
theorem evalKwList_ok_mem {V : Type}
    {ev : NodeId → Option (Except PyErr V × List NodeId)} :
    ∀ {l : List (String × NodeId)} {kvs : List (String × V)} {tr : List NodeId},
    evalKwList ev l = some (.ok kvs, tr) →
    ∀ kp, kp ∈ l → ∃ v tr1, ev kp.2 = some (.ok v, tr1) := by
  intro l
  induction l with
  | nil => intro kvs tr _ kp hp; exact absurd hp (List.not_mem_nil kp)
  | cons kq rest ih =>
    intro kvs tr h kp hp
    unfold evalKwList at h
    cases hq : ev kq.2 with
    | none => rw [hq] at h; simp at h
    | some r =>
      rw [hq] at h
      obtain ⟨res1, tr1⟩ := r
      cases res1 with
      | error e => simp at h
      | ok v =>
        cases hrest : evalKwList ev rest with
        | none => rw [hrest] at h; simp at h
        | some r2 =>
          rw [hrest] at h
          obtain ⟨res2, tr2⟩ := r2
          cases res2 with
          | error e => simp at h
          | ok kvs2 =>
            rcases List.mem_cons.mp hp with hp1 | hp2
            · subst hp1; exact ⟨v, tr1, hq⟩
            · exact ih hrest kp hp2

/-- When the callable of the single node `m` always raises `e` and every
other node body is total, every evaluation result in the graph is either a
success or exactly the error `e`: errors are never translated or wrapped. -/
theorem request_data_only_error {V : Type} {g : Graph V} {env : Env V}
    {m : NodeId} {ndm : Node V} {fm : FnT V} {e : PyErr}
    (hwf : g.wf = true)
    (hm : g.find? m = some ndm) (hmf : ndm.func = Func.fn fm)
    (hme : ∀ vs kvs, fm vs kvs = Except.error e)
    (hot : ∀ k ndk, g.find? k = some ndk → k ≠ m → FuncTotal env ndk.func) :
    ∀ (fuel : Nat) (n : NodeId), (g.find? n).isSome = true →
    ∀ res tr, request_data g env fuel n = some (res, tr) →
    (∃ v, res = Except.ok v) ∨ res = Except.error e := by
  intro fuel
  induction fuel with
  | zero => intro n _ res tr h; simp [request_data] at h
  | succ fl ih =>
    intro n hsome res tr h
    unfold request_data at h
    cases hfn : g.find? n with
    | none => rw [hfn] at hsome; simp at hsome
    | some nd =>
      rw [hfn] at h
      dsimp only at h
      cases hfu : nd.func with
      | input v =>
        rw [hfu] at h
        dsimp only at h
        simp only [Option.some.injEq, Prod.mk.injEq] at h
        exact Or.inl ⟨v, h.1.symm⟩
      | widget w =>
        rw [hfu] at h
        dsimp only at h
        simp only [Option.some.injEq, Prod.mk.injEq] at h
        by_cases hnm : n = m
        · subst hnm
          rw [hfn] at hm
          injection hm with hnd
          subst hnd
          rw [hfu] at hmf
          exact absurd hmf (fun hh => Func.noConfusion hh)
        · have ht := hot n nd hfn hnm
          rw [hfu] at ht
          obtain ⟨v, hv⟩ := ht
          exact Or.inl ⟨v, by rw [← h.1, hv]⟩
      | fn f =>
        rw [hfu] at h
        dsimp only at h
        have hparents : ∀ p, p ∈ nd.parents → ∀ res1 tr1,
            request_data g env fl p = some (res1, tr1) →
            (∃ v, res1 = Except.ok v) ∨ res1 = Except.error e := by
          intro p hp res1 tr1 hrd
          exact ih p (wf_parents_exist hwf hfn (List.mem_append_left _ hp)) res1 tr1 hrd
        have hkws : ∀ kp, kp ∈ nd.kwparents → ∀ res1 tr1,
            request_data g env fl kp.2 = some (res1, tr1) →
            (∃ v, res1 = Except.ok v) ∨ res1 = Except.error e := by
          intro kp hkp res1 tr1 hrd
          exact ih kp.2 (wf_parents_exist hwf hfn
            (List.mem_append_right _ (List.mem_map_of_mem _ hkp))) res1 tr1 hrd
        cases hl : evalList (fun p => request_data g env fl p) nd.parents with
        | none => rw [hl] at h; simp at h
        | some r1 =>
          rw [hl] at h
          obtain ⟨res1, tr1⟩ := r1
          cases res1 with
          | error e2 =>
            simp only [Option.some.injEq, Prod.mk.injEq] at h
            right
            rw [← h.1, evalList_error_from hparents hl]
          | ok vs =>
            cases hk : evalKwList (fun p => request_data g env fl p) nd.kwparents with
            | none => rw [hk] at h; simp at h
            | some r2 =>
              rw [hk] at h
              obtain ⟨res2, tr2⟩ := r2
              cases res2 with
              | error e2 =>
                simp only [Option.some.injEq, Prod.mk.injEq] at h
                right
                rw [← h.1, evalKwList_error_from hkws hk]
              | ok kvs =>
                simp only [Option.some.injEq, Prod.mk.injEq] at h
                by_cases hnm : n = m
                · subst hnm
                  rw [hfn] at hm
                  injection hm with hnd
                  subst hnd
                  rw [hfu] at hmf
                  injection hmf with hffm
                  right
                  rw [← h.1, hffm, hme]
                · have ht := hot n nd hfn hnm
                  rw [hfu] at ht
                  obtain ⟨v, hv⟩ := ht vs kvs
                  exact Or.inl ⟨v, by rw [← h.1, hv]⟩

/-- Evaluating the raising node `m` itself always yields exactly the error
`e` whenever it terminates. -/
theorem request_data_at_error_node {V : Type} {g : Graph V} {env : Env V}
    {m : NodeId} {ndm : Node V} {fm : FnT V} {e : PyErr}
    (hwf : g.wf = true)
    (hm : g.find? m = some ndm) (hmf : ndm.func = Func.fn fm)
    (hme : ∀ vs kvs, fm vs kvs = Except.error e)
    (hot : ∀ k ndk, g.find? k = some ndk → k ≠ m → FuncTotal env ndk.func) :
    ∀ (fuel : Nat) (res : Except PyErr V) (tr : List NodeId),
    request_data g env fuel m = some (res, tr) → res = Except.error e := by
  intro fuel res tr h
  cases fuel with
  | zero => simp [request_data] at h
  | succ fl =>
    unfold request_data at h
    rw [hm] at h
    dsimp only at h
    rw [hmf] at h
    dsimp only at h
    have hparents : ∀ p, p ∈ ndm.parents → ∀ res1 tr1,
        request_data g env fl p = some (res1, tr1) →
        (∃ v, res1 = Except.ok v) ∨ res1 = Except.error e := by
      intro p hp res1 tr1 hrd
      exact request_data_only_error hwf hm hmf hme hot fl p
        (wf_parents_exist hwf hm (List.mem_append_left _ hp)) res1 tr1 hrd
    have hkws : ∀ kp, kp ∈ ndm.kwparents → ∀ res1 tr1,
        request_data g env fl kp.2 = some (res1, tr1) →
        (∃ v, res1 = Except.ok v) ∨ res1 = Except.error e := by
      intro kp hkp res1 tr1 hrd
      exact request_data_only_error hwf hm hmf hme hot fl kp.2
        (wf_parents_exist hwf hm
          (List.mem_append_right _ (List.mem_map_of_mem _ hkp))) res1 tr1 hrd
    cases hl : evalList (fun p => request_data g env fl p) ndm.parents with
    | none => rw [hl] at h; simp at h
    | some r1 =>
      rw [hl] at h
      obtain ⟨res1, tr1⟩ := r1
      cases res1 with
      | error e2 =>
        simp only [Option.some.injEq, Prod.mk.injEq] at h
        rw [← h.1, evalList_error_from hparents hl]
      | ok vs =>
        cases hk : evalKwList (fun p => request_data g env fl p) ndm.kwparents with
        | none => rw [hk] at h; simp at h
        | some r2 =>
          rw [hk] at h
          obtain ⟨res2, tr2⟩ := r2
          cases res2 with
          | error e2 =>
            simp only [Option.some.injEq, Prod.mk.injEq] at h
            rw [← h.1, evalKwList_error_from hkws hk]
          | ok kvs =>
            simp only [Option.some.injEq, Prod.mk.injEq] at h
            rw [← h.1, hme]

/-- C5: when one upstream node's callable always raises the exception `e`
and every other node body is total, `request_data` on any downstream node
raises exactly `e` — the same exception, unmodified, with no wrapping,
translation or partial-result recovery. -/
theorem spec2proof_C5 {V : Type} {g : Graph V} {env : Env V} {m : NodeId}
    {ndm : Node V} {fm : FnT V} {e : PyErr}
    (hwf : g.wf = true)
    (hm : g.find? m = some ndm) (hmf : ndm.func = Func.fn fm)
    (hme : ∀ vs kvs, fm vs kvs = Except.error e)
    (hot : ∀ k ndk, g.find? k = some ndk → k ≠ m → FuncTotal env ndk.func) :
    ∀ (fuel : Nat) (n : NodeId), UpstreamOf g m n →
    ∀ res tr, request_data g env fuel n = some (res, tr) →
    res = Except.error e := by
  intro fuel
  induction fuel with
  | zero => intro n _ res tr h; simp [request_data] at h
  | succ fl ih =>
    intro n hup res tr h
    have hstep : ∃ nd, g.find? n = some nd ∧ ∃ q, q ∈ parentIds nd ∧
        (∀ res1 tr1, request_data g env fl q = some (res1, tr1) →
          res1 = Except.error e) := by
      cases hup with
      | direct n2 nd hfind hmem =>
        exact ⟨nd, hfind, m, hmem, fun res1 tr1 h1 =>
          request_data_at_error_node hwf hm hmf hme hot fl res1 tr1 h1⟩
      | step n2 p nd hfind hmem hup2 =>
        exact ⟨nd, hfind, p, hmem, fun res1 tr1 h1 => ih p hup2 res1 tr1 h1⟩
    obtain ⟨nd, hfn, q, hq, herrq⟩ := hstep
    unfold request_data at h
    rw [hfn] at h
    dsimp only at h
    cases hfu : nd.func with
    | input v =>
      exfalso
      have hpar := wf_no_phantom hwf hfn (by rw [hfu]; intro f hf; exact Func.noConfusion hf)
      rw [hpar] at hq
      exact absurd hq (List.not_mem_nil q)
    | widget w =>
      exfalso
      have hpar := wf_no_phantom hwf hfn (by rw [hfu]; intro f hf; exact Func.noConfusion hf)
      rw [hpar] at hq
      exact absurd hq (List.not_mem_nil q)
    | fn f =>
      rw [hfu] at h
      dsimp only at h
      have hparents : ∀ p, p ∈ nd.parents → ∀ res1 tr1,
          request_data g env fl p = some (res1, tr1) →
          (∃ v, res1 = Except.ok v) ∨ res1 = Except.error e := by
        intro p hp res1 tr1 hrd
        exact request_data_only_error hwf hm hmf hme hot fl p
          (wf_parents_exist hwf hfn (List.mem_append_left _ hp)) res1 tr1 hrd
      have hkws : ∀ kp, kp ∈ nd.kwparents → ∀ res1 tr1,
          request_data g env fl kp.2 = some (res1, tr1) →
          (∃ v, res1 = Except.ok v) ∨ res1 = Except.error e := by
        intro kp hkp res1 tr1 hrd
        exact request_data_only_error hwf hm hmf hme hot fl kp.2
          (wf_parents_exist hwf hfn
            (List.mem_append_right _ (List.mem_map_of_mem _ hkp))) res1 tr1 hrd
      cases hl : evalList (fun p => request_data g env fl p) nd.parents with
      | none => rw [hl] at h; simp at h
      | some r1 =>
        rw [hl] at h
        obtain ⟨res1, tr1⟩ := r1
        cases res1 with
        | error e2 =>
          simp only [Option.some.injEq, Prod.mk.injEq] at h
          rw [← h.1, evalList_error_from hparents hl]
        | ok vs =>
          cases hk : evalKwList (fun p => request_data g env fl p) nd.kwparents with
          | none => rw [hk] at h; simp at h
          | some r2 =>
            rw [hk] at h
            obtain ⟨res2, tr2⟩ := r2
            cases res2 with
            | error e2 =>
              simp only [Option.some.injEq, Prod.mk.injEq] at h
              rw [← h.1, evalKwList_error_from hkws hk]
            | ok kvs =>
              exfalso
              rcases List.mem_append.mp hq with hq1 | hq2
              · obtain ⟨v, tr0, hv⟩ := evalList_ok_mem hl q hq1
                exact Except.noConfusion (herrq _ _ hv)
              · obtain ⟨kp, hkp, hkpq⟩ := List.mem_map.mp hq2
                obtain ⟨v, tr0, hv⟩ := evalKwList_ok_mem hk kp hkp
                rw [hkpq] at hv
                exact Except.noConfusion (herrq _ _ hv)

/-- C5 witness: the concrete raising node and its downstream dependent; the
downstream `request_data` raises exactly `ValueError`. -/
theorem spec2proof_C5_witness :
    errScenario.1.wf = true ∧
    errScenario.1.find? errScenario.2.1 = some
      { func := .fn raiseF, parents := [], kwparents := [],
        children := [errScenario.2.2], views := [] } ∧
    (∀ vs kvs, raiseF vs kvs = Except.error ValueError) ∧
    UpstreamOf errScenario.1 errScenario.2.1 errScenario.2.2 ∧
    request_data errScenario.1 (fun _ => Except.ok 0) 2 errScenario.2.2
      = some (.error ValueError, [errScenario.2.2, errScenario.2.1]) ∧
    (∀ res tr, request_data errScenario.1 (fun _ => Except.ok 0) 2 errScenario.2.2
      = some (res, tr) → res = Except.error ValueError) := by
  have hot : ∀ k ndk, errScenario.1.find? k = some ndk → k ≠ errScenario.2.1 →
      FuncTotal (fun _ => Except.ok 0) ndk.func := by
    intro k ndk hf hk
    have hmem := find?_mem hf
    have hnodes : errScenario.1.nodes =
        [(0, { func := .fn raiseF, parents := [], kwparents := [],
               children := [1], views := [] }),
         (1, { func := .fn zeroF, parents := [0], kwparents := [],
               children := [], views := [] })] := rfl
    rw [hnodes] at hmem
    simp only [List.mem_cons, List.not_mem_nil, or_false] at hmem
    rcases hmem with h1 | h2
    · rw [Prod.mk.injEq] at h1
      exact absurd h1.1 hk
    · rw [Prod.mk.injEq] at h2
      rw [h2.2]
      exact fun vs kvs => ⟨0, rfl⟩
  have hup : UpstreamOf errScenario.1 errScenario.2.1 errScenario.2.2 :=
    UpstreamOf.direct errScenario.2.2
      { func := .fn zeroF, parents := [0], kwparents := [], children := [],
        views := [] }
      rfl (by decide)
  refine ⟨rfl, rfl, fun _ _ => rfl, hup, rfl, ?_⟩
  intro res tr h
  exact @spec2proof_C5 Int errScenario.1 (fun _ => Except.ok 0) errScenario.2.1
    { func := .fn raiseF, parents := [], kwparents := [],
      children := [errScenario.2.2], views := [] }
    raiseF ValueError rfl rfl rfl (fun _ _ => rfl) hot 2 errScenario.2.2 hup
    res tr h

/-- Looking up the fresh key in an association list extended with it finds
the new binding, provided all existing keys are below the fresh key. -/
theorem find?_append_key {V : Type} (fr : NodeId) (nd : Node V) :
    ∀ l : List (NodeId × Node V), (∀ p, p ∈ l → p.1 < fr) →
    (((l ++ [(fr, nd)]).find? (fun p => p.1 == fr)).map (fun p => p.2)) = some nd := by
  intro l
  induction l with
  | nil =>
    intro _
    simp [List.find?]
  | cons a rest ih =>
    intro hall
    have ha : a.1 < fr := hall a (List.mem_cons_self a rest)
    have hne : (a.1 == fr) = false := by
      simp only [beq_eq_false_iff_ne, ne_eq]
      exact Nat.ne_of_lt ha
    rw [List.cons_append]
    simp only [List.find?_cons, hne]
    exact ih (fun p hp => hall p (List.mem_cons_of_mem a hp))

/-- On a graph whose stored keys are all below the fresh counter, a freshly
pushed node is found under its new identifier. -/
theorem find?_push_fresh {V : Type} {g : Graph V} (hfresh : g.freshOk = true)
    (nd : Node V) : (g.push nd).1.find? (g.push nd).2 = some nd := by
  have hall : ∀ p, p ∈ g.nodes → p.1 < g.fresh := by
    intro p hp
    have := (List.all_eq_true.mp hfresh) p hp
    simpa using this
  show ((g.nodes ++ [(g.fresh, nd)]).find? (fun p => p.1 == g.fresh)).map
    (fun p => p.2) = some nd
  exact find?_append_key g.fresh nd g.nodes hall

/-- C6: constructing a node whose first argument is a raw non-callable
value while supplying positional or keyword parents fails fast with
`ConfigurationError`, and calling `add_parents` on an existing pure input
node raises `ConfigurationError`. -/
theorem spec2proof_C6 {V : Type} (g : Graph V) (v : V) (args : List (NodeArg V))
    (kwargs : List (String × NodeArg V)) (args2 : List (NodeArg V)) :
    (args ≠ [] ∨ kwargs ≠ [] →
      mkNode g (.value v) args kwargs = .error ConfigurationError) ∧
    (g.freshOk = true →
      add_parents (mkInputNode g v).1 (mkInputNode g v).2 args2
        = .error ConfigurationError) := by
  constructor
  · intro hne
    unfold mkNode
    cases args with
    | nil =>
      rcases hne with h1 | h2
      · exact absurd rfl h1
      · cases kwargs with
        | nil => exact absurd rfl h2
        | cons ka l => rfl
    | cons a l => cases kwargs <;> rfl
  · intro hfresh
    unfold add_parents
    have hfind : (mkInputNode g v).1.find? (mkInputNode g v).2
        = some { func := .input v, parents := [], kwparents := [],
                 children := [], views := [] } :=
      find?_push_fresh hfresh _
    rw [hfind]

/-- C6 witness: the concrete raw-value construction with one positional
parent, and `add_parents` on a fresh input node over the empty graph. -/
theorem spec2proof_C6_witness :
    (([NodeArg.raw (0 : Int)] ≠ [] ∨ ([] : List (String × NodeArg Int)) ≠ []) ∧
      mkNode (Graph.empty (V := Int)) (.value 1) [NodeArg.raw 0] []
        = .error ConfigurationError) ∧
    ((Graph.empty (V := Int)).freshOk = true ∧
      add_parents (mkInputNode (Graph.empty (V := Int)) 1).1
        (mkInputNode (Graph.empty (V := Int)) 1).2 []
        = .error ConfigurationError) := by
  have h := spec2proof_C6 (Graph.empty (V := Int)) 1 [NodeArg.raw 0] [] []
  have hne : [NodeArg.raw (0 : Int)] ≠ [] ∨ ([] : List (String × NodeArg Int)) ≠ [] :=
    Or.inl (by simp)
  exact ⟨⟨hne, h.1 hne⟩, ⟨rfl, h.2 rfl⟩⟩

/-- Lookup after an in-place association-list modification: the targeted
key's record is transformed, every other key is untouched. -/
theorem assoc_find?_modify {V : Type} (m : NodeId) (f : Node V → Node V)
    (k : NodeId) :
    ∀ l : List (NodeId × Node V),
    (((l.map (fun p => if p.1 == m then (p.1, f p.2) else p)).find?
        (fun p => p.1 == k)).map (fun p => p.2))
      = if k = m then (((l.find? (fun p => p.1 == k)).map (fun p => p.2)).map f)
        else ((l.find? (fun p => p.1 == k)).map (fun p => p.2)) := by
  intro l
  induction l with
  | nil => by_cases hkm : k = m <;> simp [hkm, List.find?]
  | cons a rest ih =>
    rw [List.map_cons]
    cases ham : (a.1 == m) with
    | true =>
      have hm : a.1 = m := by simpa using ham
      cases hak : (a.1 == k) with
      | true =>
        have hk : a.1 = k := by simpa using hak
        have hkm : k = m := by rw [← hk]; exact hm
        simp [List.find?, ham, hak, hkm]
      | false =>
        have hkm : ¬ (k = m) := by
          intro h2
          rw [h2] at hak
          rw [hak] at ham
          exact Bool.noConfusion ham
        simp only [List.find?, ham, hak]
        rw [if_neg hkm]
        have h3 := ih
        rw [if_neg hkm] at h3
        simpa [ham, hak] using h3
    | false =>
      cases hak : (a.1 == k) with
      | true =>
        have hkm : ¬ (k = m) := by
          intro h2
          rw [h2] at hak
          rw [hak] at ham
          exact Bool.noConfusion ham
        simp [List.find?, ham, hak, hkm]
      | false =>
        simp only [List.find?, ham, hak]
        simpa [ham, hak] using ih

/-- Graph-level version of `assoc_find?_modify`. -/
theorem find?_modifyNode {V : Type} (g : Graph V) (m : NodeId)
    (f : Node V → Node V) (k : NodeId) :
    (g.modifyNode m f).find? k
      = if k = m then (g.find? k).map f else (g.find? k) := by
  show ((g.nodes.map (fun p => if p.1 == m then (p.1, f p.2) else p)).find?
      (fun p => p.1 == k)).map (fun p => p.2) = _
  rw [assoc_find?_modify]
  by_cases hkm : k = m <;> simp [hkm, Graph.find?]

/-- Folding child-pruning steps over a list of parents never changes a
node's body, parents, keyword parents or views, only shrinks children, and
guarantees that any node listed as a pruning target no longer registers the
pruned child. -/
theorem foldl_pruneChild_find? {V : Type} (n : NodeId) :
    ∀ (ps : List NodeId) (g : Graph V) (k : NodeId) (nd2 : Node V),
    ((ps.foldl (pruneChild n) g).find? k) = some nd2 →
    ∃ nd0, g.find? k = some nd0 ∧ nd2.func = nd0.func ∧
      nd2.parents = nd0.parents ∧ nd2.kwparents = nd0.kwparents ∧
      nd2.views = nd0.views ∧
      (∀ c, c ∈ nd2.children → c ∈ nd0.children) ∧
      (k ∈ ps → n ∉ nd2.children) := by
  intro ps
  induction ps with
  | nil =>
    intro g k nd2 h
    exact ⟨nd2, h, rfl, rfl, rfl, rfl, fun c hc => hc,
      fun hk => absurd hk (List.not_mem_nil k)⟩
  | cons q rest ih =>
    intro g k nd2 h
    rw [List.foldl_cons] at h
    obtain ⟨nd1, hfind1, hfu, hpa, hkw, hvw, hch, hlast⟩ :=
      ih (pruneChild n g q) k nd2 h
    rw [pruneChild, find?_modifyNode] at hfind1
    by_cases hkq : k = q
    · rw [if_pos hkq] at hfind1
      obtain ⟨nd0, hnd0, hmap⟩ := Option.map_eq_some'.mp hfind1
      have hnot : n ∉ nd2.children := by
        intro hmem
        have h1 : n ∈ nd1.children := hch n hmem
        rw [← hmap] at h1
        simp only at h1
        have h2 := List.of_mem_filter h1
        simp at h2
      refine ⟨nd0, hnd0, ?_, ?_, ?_, ?_, ?_, fun _ => hnot⟩
      · rw [hfu, ← hmap]
      · rw [hpa, ← hmap]
      · rw [hkw, ← hmap]
      · rw [hvw, ← hmap]
      · intro c hc
        have h1 : c ∈ nd1.children := hch c hc
        rw [← hmap] at h1
        simp only at h1
        exact List.mem_of_mem_filter h1
    · rw [if_neg hkq] at hfind1
      refine ⟨nd1, hfind1, hfu, hpa, hkw, hvw, hch, ?_⟩
      intro hk
      rcases List.mem_cons.mp hk with hk1 | hk2
      · exact absurd hk1 hkq
      · exact hlast hk2

/-- Any event produced by a notification list comes from one of its nodes. -/
theorem notifyList_mem {M : Type} {step : NodeId → List (ViewId × M)}
    {x : ViewId × M} :
    ∀ {l : List NodeId}, x ∈ notifyList step l → ∃ c, c ∈ l ∧ x ∈ step c := by
  intro l
  induction l with
  | nil => intro h; simp [notifyList] at h
  | cons c rest ih =>
    intro h
    unfold notifyList at h
    rcases List.mem_append.mp h with h1 | h2
    · exact ⟨c, List.mem_cons_self c rest, h1⟩
    · obtain ⟨d, hd, hx⟩ := ih h2
      exact ⟨d, List.mem_cons_of_mem c hd, hx⟩

/-- Every `notify_view` event targets a view that is attached to some node
of the graph. -/
theorem notify_children_event_view {V M : Type} (g : Graph V) (msg : M) :
    ∀ (fuel : Nat) (p : NodeId) (xv : ViewId) (mm : M),
    (xv, mm) ∈ notify_children g msg fuel p →
    ∃ k ndk, g.find? k = some ndk ∧ xv ∈ ndk.views := by
  intro fuel
  induction fuel with
  | zero => intro p xv mm h; simp [notify_children] at h
  | succ fl ih =>
    intro p xv mm h
    unfold notify_children at h
    cases hfp : g.find? p with
    | none => rw [hfp] at h; simp at h
    | some nd =>
      rw [hfp] at h
      dsimp only at h
      rcases List.mem_append.mp h with h1 | h2
      · obtain ⟨v, hv, heq⟩ := List.mem_map.mp h1
        rw [Prod.mk.injEq] at heq
        rw [← heq.1]
        exact ⟨p, nd, hfp, hv⟩
      · obtain ⟨c, -, hx⟩ := notifyList_mem h2
        exact ih c xv mm hx

/-- C8: after `remove`, the node is absent from every former parent's child
registry, its own parent, keyword-parent and view collections are empty,
and no notification in the detached graph — in particular none started at a
former parent — produces a `notify_view` call on a view that was attached
only to the removed node. -/
theorem spec2proof_C8 {V M : Type} (g : Graph V) (n : NodeId) (nd : Node V)
    (hfind : g.find? n = some nd) :
    (∀ p, p ∈ parentIds nd → ∀ nd2, (remove g n).find? p = some nd2 →
      n ∉ nd2.children) ∧
    (∀ nd2, (remove g n).find? n = some nd2 →
      nd2.parents = [] ∧ nd2.kwparents = [] ∧ nd2.views = []) ∧
    (∀ xv, xv ∈ nd.views →
      (∀ k ndk, g.find? k = some ndk → k ≠ n → xv ∉ ndk.views) →
      ∀ (msg : M) (fuel : Nat) (p : NodeId) (mm : M),
        (xv, mm) ∉ notify_children (remove g n) msg fuel p) := by
  have hrem : remove g n = ((parentIds nd).foldl (pruneChild n) g).modifyNode n
      (fun x => { x with parents := [], kwparents := [], views := [] }) := by
    unfold remove
    rw [hfind]
  refine ⟨?_, ?_, ?_⟩
  · intro p hp nd2 hfind2
    rw [hrem, find?_modifyNode] at hfind2
    by_cases hpn : p = n
    · rw [if_pos hpn] at hfind2
      obtain ⟨nd1, hnd1, hmap⟩ := Option.map_eq_some'.mp hfind2
      obtain ⟨nd0, hnd0, -, -, -, -, -, hlast⟩ :=
        foldl_pruneChild_find? n (parentIds nd) g p nd1 hnd1
      intro hmem
      rw [← hmap] at hmem
      exact hlast hp hmem
    · rw [if_neg hpn] at hfind2
      obtain ⟨nd0, hnd0, -, -, -, -, -, hlast⟩ :=
        foldl_pruneChild_find? n (parentIds nd) g p nd2 hfind2
      exact hlast hp
  · intro nd2 hfind2
    rw [hrem, find?_modifyNode, if_pos rfl] at hfind2
    obtain ⟨nd1, hnd1, hmap⟩ := Option.map_eq_some'.mp hfind2
    rw [← hmap]
    exact ⟨rfl, rfl, rfl⟩
  · intro xv hxv huniq msg fuel p mm hmem
    obtain ⟨k, ndk, hfk, hxvk⟩ :=
      notify_children_event_view (remove g n) msg fuel p xv mm hmem
    rw [hrem, find?_modifyNode] at hfk
    by_cases hkn : k = n
    · rw [if_pos hkn] at hfk
      obtain ⟨nd1, hnd1, hmap⟩ := Option.map_eq_some'.mp hfk
      rw [← hmap] at hxvk
      simp at hxvk
    · rw [if_neg hkn] at hfk
      obtain ⟨nd0, hnd0, -, -, -, hvw, -, -⟩ :=
        foldl_pruneChild_find? n (parentIds nd) g k ndk hfk
      rw [hvw] at hxvk
      exact huniq k nd0 hnd0 hkn hxvk

/-- C8 witness: the concrete two-node graph with one view attached to the
dependent node, which is then removed. -/
theorem spec2proof_C8_witness :
    removeScenario.1.find? removeScenario.2.2 = some removedNodeRec ∧
    ((∀ p, p ∈ parentIds removedNodeRec → ∀ nd2,
        (remove removeScenario.1 removeScenario.2.2).find? p = some nd2 →
        removeScenario.2.2 ∉ nd2.children) ∧
      (∀ nd2, (remove removeScenario.1 removeScenario.2.2).find? removeScenario.2.2
          = some nd2 → nd2.parents = [] ∧ nd2.kwparents = [] ∧ nd2.views = []) ∧
      (∀ xv, xv ∈ removedNodeRec.views →
        (∀ k ndk, removeScenario.1.find? k = some ndk →
          k ≠ removeScenario.2.2 → xv ∉ ndk.views) →
        ∀ (msg : String) (fuel : Nat) (p : NodeId) (mm : String), (xv, mm) ∉
          notify_children (remove removeScenario.1 removeScenario.2.2) msg fuel p)) :=
  ⟨rfl, spec2proof_C8 removeScenario.1 removeScenario.2.2 removedNodeRec rfl⟩

end Plopp
